import Mathlib

/-!
# Verification of the `bd-address-pro` search core (`src/utils/search.ts`)

Shallow embedding of the fuzzy-search engine: the similarity scorer
(`levenshteinDistance`, `calculateSimilarity`), the per-entity field matcher
(`searchInItem`), the ranked search pipeline (`search` with its presets
`quickSearch`, `fuzzySearch`, `searchBengali`, `searchEnglish`), and the
autocomplete engine (`checkStartsWith`, `autocomplete`).

Modelling conventions:
* JavaScript strings are `List Char`; `String.prototype.toLowerCase` is
  per-character `Char.toLower`; `trim` strips whitespace from both ends.
* Scores are exact rationals `ℚ` (the source uses IEEE doubles; all the
  constants and formulas here are small exact fractions).
* The bundled JSON catalogs (`divisions.json`, `districts.json`,
  `upazilas.json`) are not part of the sources; following the spec's
  entity-sequence-generic contracts (`rankedSearch(entities, …)`), every
  operation takes the three catalogs as explicit parameters.
* A thrown JavaScript exception is `Except.error ()`.  In particular
  `Array.prototype.reduce` on an empty array throws, which the embedding of
  `searchInItem` reproduces faithfully.
-/

namespace BdAddress

/-- One catalog record as seen by the search core: primary (English) name,
secondary (Bengali) name and slug, plus an identifier.  Extra domain fields
of `Division`/`District`/`Upazila` are never read by the search code. -/
structure Location where
  id : Nat
  name : List Char
  bnName : List Char
  slug : List Char
deriving DecidableEq, Repr

/-- The `LocationType` union `'division' | 'district' | 'upazila'`. -/
inductive LocationType where
  | division
  | district
  | upazila
deriving DecidableEq, Repr

/-- Which field produced the best score (`'name' | 'bnName' | 'slug'`). -/
inductive Field where
  | name
  | bnName
  | slug
deriving DecidableEq, Repr

/-- The `SearchOptions` record, after merging with the defaults (the TS interface has
optional fields; the source always spreads user options over
`defaultSearchOptions`, so the embedded operations take the merged record). -/
structure SearchOptions where
  includeEnglish : Bool
  includeBengali : Bool
  includeSlug : Bool
  limit : Int
  threshold : ℚ
  caseSensitive : Bool
  types : List LocationType
deriving DecidableEq, Repr

/-- Source `defaultSearchOptions`. -/
def defaultSearchOptions : SearchOptions :=
  { includeEnglish := true
    includeBengali := true
    includeSlug := true
    limit := 10
    threshold := 0.3
    caseSensitive := false
    types := [LocationType.division, LocationType.district, LocationType.upazila] }

/-- Per-character lowercasing, the model of `String.prototype.toLowerCase`. -/
def lowerStr (s : List Char) : List Char := s.map Char.toLower

/-- Model of `String.prototype.trim`: drop whitespace from both ends. -/
def trimStr (s : List Char) : List Char :=
  ((s.dropWhile Char.isWhitespace).reverse.dropWhile Char.isWhitespace).reverse

/-! ## Levenshtein distance

The source fills the classic DP matrix over prefixes, extending both strings
at their **ends**: `dp[i][j]` compares the length-`i` prefix of `str1` with
the length-`j` prefix of `str2` through their last characters.  `levAux`
below implements exactly that recurrence by peeling first characters, so the
embedding of the source applies it to the reversed strings. -/

/-- Inner loop of the DP: `levGo a row slen t` is the distance between
`a :: s` (reversed prefix) and `t`, where `row = levAux s` is the previous
row and `slen = s.length`.  The three arguments of the `min` are, in the
source's order, substitution, deletion and insertion. -/
def levGo (a : Char) (row : List Char → Nat) (slen : Nat) : List Char → Nat
  | [] => slen + 1
  | b :: t =>
      if a = b then row t
      else Nat.min (row t + 1) (Nat.min (row (b :: t) + 1) (levGo a row slen t + 1))

/-- The DP recurrence itself, by structural recursion on the first string. -/
def levAux : List Char → List Char → Nat
  | [], t => t.length
  | a :: s, t => levGo a (levAux s) s.length t

/-- Source `levenshteinDistance`: the DP runs over prefixes
extended at the right end, i.e. `levAux` on the reversed strings. -/
def levenshteinDistance (str1 str2 : List Char) : Nat :=
  levAux str1.reverse str2.reverse

/-! ## Similarity scorer -/

/-- The source's `caseSensitive ? s : s.toLowerCase()`. -/
def foldCase (caseSensitive : Bool) (s : List Char) : List Char :=
  if caseSensitive then s else lowerStr s

/-- Source `calculateSimilarity`: exact match, then containment,
then prefix (dead code, see claim C3), then the normalized edit-distance
similarity.  `t.includes(q)` is `q <:+: t`, `t.startsWith(q)` is `q <+: t`. -/
def calculateSimilarity (query target : List Char) (caseSensitive : Bool) : ℚ :=
  let q := foldCase caseSensitive query
  let t := foldCase caseSensitive target
  if q = t then 1
  else if q <:+: t then 0.8 + ((q.length : ℚ) / (t.length : ℚ)) * 0.2
  else if q <+: t then 0.9
  else
    max 0 (1 - (levenshteinDistance q t : ℚ) / (max q.length t.length : ℚ))

/-- Variant of `calculateSimilarity` with the `startsWith` rule removed: used to state
that the 0.9 prefix branch of the source is unreachable. -/
def calculateSimilarityNoPrefixRule (query target : List Char)
    (caseSensitive : Bool) : ℚ :=
  let q := foldCase caseSensitive query
  let t := foldCase caseSensitive target
  if q = t then 1
  else if q <:+: t then 0.8 + ((q.length : ℚ) / (t.length : ℚ)) * 0.2
  else
    max 0 (1 - (levenshteinDistance q t : ℚ) / (max q.length t.length : ℚ))

/-! ## Stable sorting

`Array.prototype.sort` is stable (ECMAScript 2019+).  The source sorts with
the comparators `(a, b) => b.score - a.score` (descending score) and
`(a, b) => a.priority - b.priority` (ascending priority).  Both are modelled
by one stable insertion sort, ascending in a key: an element is inserted
before the first element with a strictly larger key, so elements with equal
keys keep their input order.  Descending score is the key `-score`. -/

section StableSort

variable {α : Type} {β : Type} [LinearOrder β]

/-- Insert `x` before the first element with a strictly larger key. -/
def insertK (key : α → β) (x : α) : List α → List α
  | [] => [x]
  | y :: ys => if key x < key y then x :: y :: ys else y :: insertK key x ys

/-- Stable ascending-by-key insertion sort. -/
def sortK (key : α → β) (l : List α) : List α :=
  l.foldl (fun acc x => insertK key x acc) []

end StableSort

/-- The `SearchResult<T>` record: entity reference, score, matched field. -/
structure SearchResult where
  item : Location
  score : ℚ
  matchedField : Field
deriving DecidableEq, Repr

/-- The `scores` array built by `searchInItem`, in source order:
`name` (if `includeEnglish`), `bnName` (if `includeBengali`),
`slug` (if `includeSlug`). -/
def fieldScores (item : Location) (query : List Char) (o : SearchOptions) :
    List (ℚ × Field) :=
  (if o.includeEnglish then
    [(calculateSimilarity query item.name o.caseSensitive, Field.name)] else []) ++
  (if o.includeBengali then
    [(calculateSimilarity query item.bnName o.caseSensitive, Field.bnName)] else []) ++
  (if o.includeSlug then
    [(calculateSimilarity query item.slug o.caseSensitive, Field.slug)] else [])

/-- Source `searchInItem`.  Note `scores.reduce(cb)` with no initial
value throws a `TypeError` on an empty array (all field flags disabled) —
modelled as `Except.error ()`; on `x :: xs` it folds `cb` over `xs` starting
from `x`, keeping the current element only on a strictly larger score. -/
def searchInItem (item : Location) (query : List Char) (o : SearchOptions) :
    Except Unit (Option SearchResult) :=
  match fieldScores item query o with
  | [] => Except.error ()
  | x :: xs =>
      let bestMatch := xs.foldl
        (fun best current => if current.1 > best.1 then current else best) x
      if bestMatch.1 ≥ o.threshold then
        Except.ok (some ⟨item, bestMatch.1, bestMatch.2⟩)
      else
        Except.ok none

/-- The per-category collection loop of `search`: run `searchInItem` over
every entity in catalog order and push the non-null results. -/
def collectMatches (data : List Location) (query : List Char) (o : SearchOptions) :
    Except Unit (List SearchResult) :=
  match data with
  | [] => Except.ok []
  | item :: rest =>
      match searchInItem item query o with
      | Except.error e => Except.error e
      | Except.ok none => collectMatches rest query o
      | Except.ok (some r) => (collectMatches rest query o).map (fun l => r :: l)

/-- Sort key for `(a, b) => b.score - a.score`: ascending in `-score` is
descending in score, ties keep input order. -/
def scoreKey (r : SearchResult) : ℚ := -r.score

/-- Model of `Array.prototype.slice(0, end)`: a negative `end` counts from the end of
the array (`max 0 (length + end)` elements), a non-negative one is a plain
cap. -/
def sliceEnd {γ : Type} (l : List γ) (e : Int) : List γ :=
  l.take (if e < 0 then ((l.length : Int) + e).toNat else e.toNat)

/-- One category of `search`: collect, sort descending by score (stable),
truncate with `slice(0, limit)`. -/
def rankCategory (data : List Location) (query : List Char) (o : SearchOptions) :
    Except Unit (List SearchResult) :=
  (collectMatches data query o).map fun ms => sliceEnd (sortK scoreKey ms) o.limit

/-- The `LocationSearchResult` record: the three per-category result sequences. -/
structure LocationSearchResult where
  divisions : List SearchResult
  districts : List SearchResult
  upazilas : List SearchResult
deriving DecidableEq, Repr

/-- Source `search`, over explicit catalogs `dv`, `dt`, `uz`.
Empty or all-whitespace queries short-circuit to the empty result; each
category in `options.types` is collected, sorted and truncated
independently, in divisions/districts/upazilas order. -/
def search (dv dt uz : List Location) (query : List Char) (o : SearchOptions) :
    Except Unit LocationSearchResult :=
  if trimStr query = [] then Except.ok ⟨[], [], []⟩
  else
    match (if LocationType.division ∈ o.types
           then rankCategory dv (trimStr query) o else Except.ok []) with
    | Except.error e => Except.error e
    | Except.ok ds =>
        match (if LocationType.district ∈ o.types
               then rankCategory dt (trimStr query) o else Except.ok []) with
        | Except.error e => Except.error e
        | Except.ok ts =>
            match (if LocationType.upazila ∈ o.types
                   then rankCategory uz (trimStr query) o else Except.ok []) with
            | Except.error e => Except.error e
            | Except.ok us => Except.ok ⟨ds, ts, us⟩

/-- Source `quickSearch`: `search` with the per-category limit forced to 1, the
three category sequences flattened, re-sorted by descending score, and the
first item returned (or `none`). -/
def quickSearch (dv dt uz : List Location) (query : List Char) (o : SearchOptions) :
    Except Unit (Option Location) :=
  (search dv dt uz query { o with limit := 1 }).map fun result =>
    let allResults := result.divisions ++ result.districts ++ result.upazilas
    if allResults = [] then none
    else
      match sortK scoreKey allResults with
      | [] => none
      | first :: _ => some first.item

/-- Source `searchDivisions`: `search` restricted to the division category. -/
def searchDivisions (dv dt uz : List Location) (query : List Char)
    (o : SearchOptions) : Except Unit (List SearchResult) :=
  (search dv dt uz query { o with types := [LocationType.division] }).map
    (fun r => r.divisions)

/-- Source `searchDistricts`: `search` restricted to the district category. -/
def searchDistricts (dv dt uz : List Location) (query : List Char)
    (o : SearchOptions) : Except Unit (List SearchResult) :=
  (search dv dt uz query { o with types := [LocationType.district] }).map
    (fun r => r.districts)

/-- Source `searchUpazilas`: `search` restricted to the upazila category. -/
def searchUpazilas (dv dt uz : List Location) (query : List Char)
    (o : SearchOptions) : Except Unit (List SearchResult) :=
  (search dv dt uz query { o with types := [LocationType.upazila] }).map
    (fun r => r.upazilas)

/-- Source `fuzzySearch`: `search` with the threshold overridden to 0.4. -/
def fuzzySearch (dv dt uz : List Location) (query : List Char)
    (o : SearchOptions) : Except Unit LocationSearchResult :=
  search dv dt uz query { o with threshold := 0.4 }

/-- Source `searchBengali`: the Bengali-name-only preset. -/
def searchBengali (dv dt uz : List Location) (query : List Char)
    (o : SearchOptions) : Except Unit LocationSearchResult :=
  search dv dt uz query
    { o with includeEnglish := false, includeBengali := true, includeSlug := false }

/-- Source `searchEnglish`: the English-name-only preset. -/
def searchEnglish (dv dt uz : List Location) (query : List Char)
    (o : SearchOptions) : Except Unit LocationSearchResult :=
  search dv dt uz query
    { o with includeEnglish := true, includeBengali := false, includeSlug := false }

/-! ## Autocomplete -/

/-- An autocomplete result entry (no score). -/
structure AutocompleteEntry where
  name : List Char
  bnName : List Char
  type : LocationType
  item : Location
deriving DecidableEq, Repr

/-- An autocomplete entry before the final `map` drops the priority. -/
structure AutocompleteEntryP where
  name : List Char
  bnName : List Char
  type : LocationType
  item : Location
  priority : Nat
deriving DecidableEq, Repr

/-- Drop the priority, as the final `.map(({name, bnName, type, item}) => …)`. -/
def AutocompleteEntryP.toEntry (e : AutocompleteEntryP) : AutocompleteEntry :=
  ⟨e.name, e.bnName, e.type, e.item⟩

/-- Source `checkStartsWith`.  The primary name is case-folded when
`caseSensitive` is off, but `bnNameToCheck` is the **raw** `bnName`
(`const bnNameToCheck = bnName;` in the source). -/
def checkStartsWith (o : SearchOptions) (q : List Char) (name bnName : List Char)
    (ty : LocationType) (item : Location) : List AutocompleteEntryP :=
  let nameToCheck := if o.caseSensitive then name else lowerStr name
  let bnNameToCheck := bnName
  if o.includeEnglish ∧ q <+: nameToCheck then
    [⟨name, bnName, ty, item, 1⟩]
  else if o.includeBengali ∧ q <+: bnNameToCheck then
    [⟨name, bnName, ty, item, 2⟩]
  else []

/-- Sort key for `(a, b) => a.priority - b.priority`. -/
def priorityKey (e : AutocompleteEntryP) : Nat := e.priority

/-- The `results` array of `autocomplete` before sorting: categories in
divisions/districts/upazilas order, entities in catalog order. -/
def autocompleteCollect (dv dt uz : List Location) (q : List Char)
    (o : SearchOptions) : List AutocompleteEntryP :=
  (if LocationType.division ∈ o.types then
    dv.flatMap (fun d => checkStartsWith o q d.name d.bnName LocationType.division d)
   else []) ++
  (if LocationType.district ∈ o.types then
    dt.flatMap (fun d => checkStartsWith o q d.name d.bnName LocationType.district d)
   else []) ++
  (if LocationType.upazila ∈ o.types then
    uz.flatMap (fun u => checkStartsWith o q u.name u.bnName LocationType.upazila u)
   else [])

/-- Source `autocomplete`: prefix-only matching, stable sort by
ascending priority, truncation to `limit`, then the priority is dropped. -/
def autocomplete (dv dt uz : List Location) (query : List Char)
    (o : SearchOptions) : List AutocompleteEntry :=
  if trimStr query = [] then []
  else
    let q := foldCase o.caseSensitive (trimStr query)
    let results := autocompleteCollect dv dt uz q o
    (sliceEnd (sortK priorityKey results) o.limit).map AutocompleteEntryP.toEntry

/-! ## Structure of a successful `search` -/

/-- Per-category description of a successful `search`: an enabled category
comes from collect–sort–slice, a disabled one is empty. -/
def categoryOk (data : List Location) (tq : List Char) (o : SearchOptions)
    (ty : LocationType) (out : List SearchResult) : Prop :=
  (ty ∈ o.types ∧ ∃ ms, collectMatches data tq o = Except.ok ms ∧
      out = sliceEnd (sortK scoreKey ms) o.limit) ∨
  (ty ∉ o.types ∧ out = [])

/-! ## Sample catalog records used at concrete inputs -/

/-- Modelled from the spec: a sample record of the bundled `divisions.json`
catalog (the data files are not part of the sources); per the README,
division 1 is `{ id: 1, name: 'Dhaka', bnName: 'ঢাকা', slug: 'dhaka' }`. -/
def dhakaDivision : Location :=
  ⟨1, ['D', 'h', 'a', 'k', 'a'], ['ঢ', 'া', 'ক', 'া'], ['d', 'h', 'a', 'k', 'a']⟩

/-- Modelled from the spec: a second sample record of the bundled
`divisions.json` catalog (Barishal division). -/
def barishalDivision : Location :=
  ⟨2, ['B', 'a', 'r', 'i', 's', 'h', 'a', 'l'], ['ব', 'র', 'ি', 'শ', 'া', 'ল'],
    ['b', 'a', 'r', 'i', 's', 'h', 'a', 'l']⟩

/-- A catalog record whose best field score against the query `"ayz"` is
`1/3 ∈ [0.3, 0.4)`: kept by the default threshold, dropped by
`fuzzySearch`'s 0.4. -/
def abcLocation : Location :=
  ⟨1, ['a', 'b', 'c'], ['z', 'z', 'z'], ['a', 'b', 'c']⟩

/-- Modelled from the spec: the autocomplete prefix test as §4.4 of the
spec states it — `candidate startsWith query` *after the same optional case
folding* — applied to the secondary name as well.  The source's
`checkStartsWith` differs: it folds the query and the primary name but
compares `bnName` raw. -/
def checkStartsWithSpec (o : SearchOptions) (q : List Char)
    (name bnName : List Char) (ty : LocationType) (item : Location) :
    List AutocompleteEntryP :=
  let nameToCheck := if o.caseSensitive then name else lowerStr name
  let bnNameToCheck := if o.caseSensitive then bnName else lowerStr bnName
  if o.includeEnglish ∧ q <+: nameToCheck then
    [⟨name, bnName, ty, item, 1⟩]
  else if o.includeBengali ∧ q <+: bnNameToCheck then
    [⟨name, bnName, ty, item, 2⟩]
  else []

/-- An entity whose secondary name contains cased (Latin) letters, which
separates the source's raw `bnName` comparison from the spec's folded one. -/
def latinBnLocation : Location :=
  ⟨1, ['x'], ['D', 'h', 'a', 'k', 'a'], ['x']⟩

/-! ## Lemmas on the stable sort -/

section StableSort

variable {α : Type} {β : Type} [LinearOrder β]

theorem insertK_nil (key : α → β) (x : α) : insertK key x [] = [x] := rfl

theorem insertK_cons (key : α → β) (x y : α) (ys : List α) :
    insertK key x (y :: ys) =
      if key x < key y then x :: y :: ys else y :: insertK key x ys := rfl

theorem insertK_perm (key : α → β) (x : α) (l : List α) :
    List.Perm (insertK key x l) (x :: l) := by
  induction l with
  | nil => rfl
  | cons y ys ih =>
    rw [insertK_cons]
    by_cases h : key x < key y
    · rw [if_pos h]
    · rw [if_neg h]
      exact (List.Perm.cons y ih).trans (List.Perm.swap x y ys)

theorem insertK_sorted (key : α → β) (x : α) (l : List α)
    (hl : List.Pairwise (fun a b => key a ≤ key b) l) :
    List.Pairwise (fun a b => key a ≤ key b) (insertK key x l) := by
  induction l with
  | nil => simp [insertK_nil]
  | cons y ys ih =>
    rw [List.pairwise_cons] at hl
    rw [insertK_cons]
    by_cases h : key x < key y
    · rw [if_pos h]
      refine List.Pairwise.cons ?_ (List.Pairwise.cons hl.1 hl.2)
      intro z hz
      rcases List.mem_cons.mp hz with hz | hz
      · rw [hz]; exact le_of_lt h
      · exact le_of_lt (lt_of_lt_of_le h (hl.1 z hz))
    · rw [if_neg h]
      refine List.Pairwise.cons ?_ (ih hl.2)
      intro z hz
      have hz' := (insertK_perm key x ys).mem_iff.mp hz
      rcases List.mem_cons.mp hz' with hz' | hz'
      · rw [hz']; exact le_of_not_lt h
      · exact hl.1 z hz'

theorem sortK_go_perm (key : α → β) (l acc : List α) :
    List.Perm (l.foldl (fun acc x => insertK key x acc) acc) (acc ++ l) := by
  induction l generalizing acc with
  | nil => simp
  | cons x xs ih =>
    rw [List.foldl_cons]
    refine (ih (insertK key x acc)).trans ?_
    have h1 : List.Perm (insertK key x acc ++ xs) ((x :: acc) ++ xs) :=
      (insertK_perm key x acc).append_right xs
    refine h1.trans ?_
    simp only [List.cons_append]
    exact List.perm_middle.symm

theorem sortK_perm (key : α → β) (l : List α) : List.Perm (sortK key l) l := by
  have := sortK_go_perm key l []
  simpa [sortK] using this

theorem sortK_go_sorted (key : α → β) (l acc : List α)
    (hacc : List.Pairwise (fun a b => key a ≤ key b) acc) :
    List.Pairwise (fun a b => key a ≤ key b)
      (l.foldl (fun acc x => insertK key x acc) acc) := by
  induction l generalizing acc with
  | nil => exact hacc
  | cons x xs ih =>
    rw [List.foldl_cons]
    exact ih _ (insertK_sorted key x acc hacc)

theorem sortK_sorted (key : α → β) (l : List α) :
    List.Pairwise (fun a b => key a ≤ key b) (sortK key l) :=
  sortK_go_sorted key l [] List.Pairwise.nil

/-- Inserting an element whose key is not larger than any key of the list
pushes it to the end. -/
theorem insertK_eq_append (key : α → β) (x : α) (l : List α)
    (h : ∀ z ∈ l, ¬ key x < key z) :
    insertK key x l = l ++ [x] := by
  induction l with
  | nil => rfl
  | cons y ys ih =>
    rw [insertK_cons, if_neg (h y (List.mem_cons_self y ys))]
    rw [ih fun z hz => h z (List.mem_cons_of_mem y hz)]
    rfl

/-- Inserting an element whose key is smaller than every key of the list
puts it at the front. -/
theorem insertK_eq_cons (key : α → β) (x : α) (l : List α)
    (h : ∀ z ∈ l, key x < key z) :
    insertK key x l = x :: l := by
  cases l with
  | nil => rfl
  | cons y ys => rw [insertK_cons, if_pos (h y (List.mem_cons_self y ys))]

/-- Filtering by a predicate on the key commutes with the stable insertion:
stability in equational form. -/
theorem insertK_filter (key : α → β) (p : β → Bool) (x : α) (l : List α)
    (hl : List.Pairwise (fun a b => key a ≤ key b) l) :
    (insertK key x l).filter (fun a => p (key a)) =
      if p (key x) then insertK key x (l.filter (fun a => p (key a)))
      else l.filter (fun a => p (key a)) := by
  induction l with
  | nil =>
    by_cases hp : p (key x) <;> simp [insertK_nil, hp]
  | cons y ys ih =>
    rw [List.pairwise_cons] at hl
    rw [insertK_cons]
    by_cases h : key x < key y
    · rw [if_pos h]
      have hfront : insertK key x ((y :: ys).filter (fun a => p (key a))) =
          x :: (y :: ys).filter (fun a => p (key a)) := by
        refine insertK_eq_cons key x _ ?_
        intro z hz
        rcases List.mem_cons.mp (List.mem_of_mem_filter hz) with h1 | h1
        · rw [h1]; exact h
        · exact lt_of_lt_of_le h (hl.1 z h1)
      by_cases hp : p (key x)
      · rw [if_pos hp, hfront]
        simp [List.filter_cons, hp]
      · rw [if_neg hp]
        simp [List.filter_cons, hp]
    · rw [if_neg h]
      rw [List.filter_cons]
      by_cases hpy : p (key y)
      · rw [if_pos hpy, ih hl.2, List.filter_cons, if_pos hpy]
        by_cases hp : p (key x)
        · rw [if_pos hp, if_pos hp, insertK_cons, if_neg h]
        · rw [if_neg hp, if_neg hp]
      · rw [if_neg hpy, ih hl.2, List.filter_cons, if_neg hpy]

theorem sortK_go_filter (key : α → β) (p : β → Bool) (l acc : List α)
    (hacc : List.Pairwise (fun a b => key a ≤ key b) acc) :
    (l.foldl (fun acc x => insertK key x acc) acc).filter (fun a => p (key a)) =
      (l.filter (fun a => p (key a))).foldl (fun acc x => insertK key x acc)
        (acc.filter (fun a => p (key a))) := by
  induction l generalizing acc with
  | nil => simp
  | cons x xs ih =>
    rw [List.foldl_cons, ih _ (insertK_sorted key x acc hacc),
      insertK_filter key p x acc hacc]
    by_cases hp : p (key x)
    · simp [hp]
    · simp [hp]

/-- Stability of the stable sort: filtering by any predicate on the key
commutes with sorting. -/
theorem sortK_filter (key : α → β) (p : β → Bool) (l : List α) :
    (sortK key l).filter (fun a => p (key a)) =
      sortK key (l.filter (fun a => p (key a))) := by
  simpa [sortK] using sortK_go_filter key p l [] List.Pairwise.nil

/-- Sorting a list whose keys are all equal is the identity. -/
theorem sortK_of_const (key : α → β) (c : β) (l : List α)
    (h : ∀ z ∈ l, key z = c) : sortK key l = l := by
  have hgen : ∀ (m acc : List α), (∀ z ∈ m, key z = c) → (∀ z ∈ acc, key z = c) →
      m.foldl (fun acc x => insertK key x acc) acc = acc ++ m := by
    intro m
    induction m with
    | nil => intro acc _ _; simp
    | cons x xs ih =>
      intro acc hm hacc
      have hx : key x = c := hm x (List.mem_cons_self x xs)
      rw [List.foldl_cons, insertK_eq_append key x acc
        (fun z hz => by rw [hacc z hz, hx]; exact lt_irrefl c)]
      rw [ih (acc ++ [x]) (fun z hz => hm z (List.mem_cons_of_mem x hz))
        (by
          intro z hz
          rcases List.mem_append.mp hz with h1 | h1
          · exact hacc z h1
          · rw [List.mem_singleton.mp h1]; exact hx)]
      simp
  simpa [sortK] using hgen l [] h (by intro z hz; cases hz)

/-- In a list sorted ascending by key, the elements whose key is at most a
bound form a prefix. -/
theorem filter_le_front (key : α → β) (c : β) (l : List α)
    (hl : List.Pairwise (fun a b => key a ≤ key b) l) :
    l.filter (fun a => decide (key a ≤ c)) <+: l := by
  induction l with
  | nil => simp
  | cons y ys ih =>
    rw [List.pairwise_cons] at hl
    rw [List.filter_cons]
    by_cases h : key y ≤ c
    · rw [if_pos (by simpa using h)]
      exact List.cons_prefix_cons.mpr ⟨rfl, ih hl.2⟩
    · rw [if_neg (by simpa using h)]
      have hnil : ys.filter (fun a => decide (key a ≤ c)) = [] := by
        rw [List.filter_eq_nil_iff]
        intro z hz
        simp only [decide_eq_true_eq]
        intro hc
        exact h (le_trans (hl.1 z hz) hc)
      rw [hnil]
      exact List.nil_prefix

end StableSort

theorem levAux_nil_left (t : List Char) : levAux [] t = t.length := rfl

theorem levAux_cons_nil (a : Char) (s : List Char) :
    levAux (a :: s) [] = s.length + 1 := rfl

theorem levAux_cons_cons (a b : Char) (s t : List Char) :
    levAux (a :: s) (b :: t) =
      if a = b then levAux s t
      else Nat.min (levAux s t + 1)
        (Nat.min (levAux s (b :: t) + 1) (levAux (a :: s) t + 1)) := rfl

theorem levAux_eq_zero {s t : List Char} (h : levAux s t = 0) : s = t := by
  induction s generalizing t with
  | nil =>
    cases t with
    | nil => rfl
    | cons b t => simp [levAux_nil_left] at h
  | cons a s ih =>
    cases t with
    | nil => simp [levAux_cons_nil] at h
    | cons b t =>
      rw [levAux_cons_cons] at h
      by_cases hab : a = b
      · rw [if_pos hab] at h
        rw [hab, ih h]
      · rw [if_neg hab] at h
        simp [Nat.min_eq_zero_iff] at h

theorem levenshteinDistance_eq_zero {s t : List Char}
    (h : levenshteinDistance s t = 0) : s = t := by
  have := levAux_eq_zero h
  exact List.reverse_injective this

theorem foldCase_length (cs : Bool) (s : List Char) :
    (foldCase cs s).length = s.length := by
  cases cs <;> simp [foldCase, lowerStr]

theorem foldCase_eq_nil_iff (cs : Bool) (s : List Char) :
    foldCase cs s = [] ↔ s = [] := by
  cases cs <;> simp [foldCase, lowerStr]

theorem infix_length_lt {q t : List Char} (h : q <:+: t) (hne : q ≠ t) :
    q.length < t.length :=
  lt_of_le_of_ne h.length_le fun he => hne (h.sublist.eq_of_length he)

/-- Unfolded form of the scorer, for case analysis. -/
theorem calculateSimilarity_eq (query target : List Char) (cs : Bool) :
    calculateSimilarity query target cs =
      (if foldCase cs query = foldCase cs target then (1 : ℚ)
       else if foldCase cs query <:+: foldCase cs target then
         0.8 + (((foldCase cs query).length : ℚ) /
           ((foldCase cs target).length : ℚ)) * 0.2
       else if foldCase cs query <+: foldCase cs target then 0.9
       else
         max 0 (1 - (levenshteinDistance (foldCase cs query) (foldCase cs target) : ℚ) /
           (max (foldCase cs query).length (foldCase cs target).length : ℚ))) := rfl

/-- Bounds and exactness of the scorer body, over the already-folded
strings. -/
theorem scoreBody_bounds (q t : List Char) :
    let S : ℚ :=
      if q = t then 1
      else if q <:+: t then 0.8 + ((q.length : ℚ) / (t.length : ℚ)) * 0.2
      else if q <+: t then 0.9
      else max 0 (1 - (levenshteinDistance q t : ℚ) / (max q.length t.length : ℚ))
    0 ≤ S ∧ S ≤ 1 ∧ (S = 1 ↔ q = t) := by
  intro S
  by_cases h1 : q = t
  · simp only [S, if_pos h1]
    refine ⟨by norm_num, le_refl 1, by simp [h1]⟩
  · by_cases h2 : q <:+: t
    · simp only [S, if_neg h1, if_pos h2]
      have hlt : q.length < t.length := infix_length_lt h2 h1
      have ht0 : (0 : ℚ) < (t.length : ℚ) := by
        have : 0 < t.length := Nat.lt_of_le_of_lt (Nat.zero_le _) hlt
        exact_mod_cast this
      have hx0 : (0 : ℚ) ≤ (q.length : ℚ) / (t.length : ℚ) :=
        div_nonneg (by positivity) (le_of_lt ht0)
      have hx1 : (q.length : ℚ) / (t.length : ℚ) < 1 := by
        rw [div_lt_one ht0]
        exact_mod_cast hlt
      refine ⟨by nlinarith, by nlinarith, ?_⟩
      constructor
      · intro hS; nlinarith
      · intro hqt; exact absurd hqt h1
    · by_cases h3 : q <+: t
      · exact absurd h3.isInfix h2
      · simp only [S, if_neg h1, if_neg h2, if_neg h3]
        have hqne : q ≠ [] := by
          intro hq
          exact h2 (hq ▸ List.nil_infix)
        have hm0 : (0 : ℚ) < (max q.length t.length : ℚ) := by
          have : 0 < q.length := List.length_pos.mpr hqne
          have : 0 < max q.length t.length := lt_of_lt_of_le this (le_max_left _ _)
          exact_mod_cast this
        have hd1 : 1 ≤ levenshteinDistance q t := by
          rcases Nat.eq_zero_or_pos (levenshteinDistance q t) with h0 | hpos
          · exact absurd (levenshteinDistance_eq_zero h0) h1
          · exact hpos
        have hdm : (0 : ℚ) < (levenshteinDistance q t : ℚ) / (max q.length t.length : ℚ) := by
          apply div_pos _ hm0
          exact_mod_cast Nat.lt_of_lt_of_le Nat.zero_lt_one hd1
        refine ⟨le_max_left _ _, ?_, ?_⟩
        · exact max_le (by norm_num) (by linarith)
        · constructor
          · intro hS
            have : max (0 : ℚ) (1 - (levenshteinDistance q t : ℚ) /
                (max q.length t.length : ℚ)) < 1 :=
              max_lt (by norm_num) (by linarith)
            exact absurd hS (ne_of_lt this)
          · intro hqt; exact absurd hqt h1

/-- C2: for every query, candidate and case-sensitivity flag, the similarity
score lies in `[0, 1]`, and it equals `1` exactly when the optionally
case-folded query and candidate are equal. -/
theorem similarity_score_bounds (query target : List Char) (cs : Bool) :
    0 ≤ calculateSimilarity query target cs ∧
      calculateSimilarity query target cs ≤ 1 ∧
      (calculateSimilarity query target cs = 1 ↔
        foldCase cs query = foldCase cs target) := by
  rw [calculateSimilarity_eq]
  exact scoreBody_bounds (foldCase cs query) (foldCase cs target)

/-- C2 witness: the bounds evaluated at a concrete query/candidate pair. -/
theorem similarity_score_bounds_witness :
    0 ≤ calculateSimilarity ['D', 'h'] ['d', 'h', 'a', 'k', 'a'] false ∧
      calculateSimilarity ['D', 'h'] ['d', 'h', 'a', 'k', 'a'] false ≤ 1 ∧
      (calculateSimilarity ['D', 'h'] ['d', 'h', 'a', 'k', 'a'] false = 1 ↔
        foldCase false ['D', 'h'] = foldCase false ['d', 'h', 'a', 'k', 'a']) :=
  similarity_score_bounds ['D', 'h'] ['d', 'h', 'a', 'k', 'a'] false

/-- Unfolded form of the scorer without the prefix rule. -/
theorem calculateSimilarityNoPrefixRule_eq (query target : List Char) (cs : Bool) :
    calculateSimilarityNoPrefixRule query target cs =
      (if foldCase cs query = foldCase cs target then (1 : ℚ)
       else if foldCase cs query <:+: foldCase cs target then
         0.8 + (((foldCase cs query).length : ℚ) /
           ((foldCase cs target).length : ℚ)) * 0.2
       else
         max 0 (1 - (levenshteinDistance (foldCase cs query) (foldCase cs target) : ℚ) /
           (max (foldCase cs query).length (foldCase cs target).length : ℚ))) := rfl

/-- The `startsWith` branch of the source is unreachable: `t.startsWith(q)`
implies `t.includes(q)`, which is tested first. -/
theorem calculateSimilarity_eq_noPrefixRule (query target : List Char) (cs : Bool) :
    calculateSimilarity query target cs =
      calculateSimilarityNoPrefixRule query target cs := by
  rw [calculateSimilarity_eq, calculateSimilarityNoPrefixRule_eq]
  by_cases h1 : foldCase cs query = foldCase cs target
  · rw [if_pos h1, if_pos h1]
  · by_cases h2 : foldCase cs query <:+: foldCase cs target
    · rw [if_neg h1, if_pos h2, if_neg h1, if_pos h2]
    · have h3 : ¬ foldCase cs query <+: foldCase cs target := fun hp => h2 hp.isInfix
      rw [if_neg h1, if_neg h2, if_neg h3, if_neg h1, if_neg h2]

/-- C3: whenever the folded candidate contains the folded query but differs
from it, the score is the containment formula `0.8 + 0.2·len(q)/len(c)`,
which lies in `[0.8, 1)`; moreover the 0.9 prefix rule can never be the
returned value — removing it changes nothing for any input. -/
theorem containment_formula (query target : List Char) (cs : Bool)
    (hq : query ≠ [])
    (hinf : foldCase cs query <:+: foldCase cs target)
    (hne : foldCase cs target ≠ foldCase cs query) :
    calculateSimilarity query target cs =
        0.8 + ((query.length : ℚ) / (target.length : ℚ)) * 0.2 ∧
      0.8 ≤ calculateSimilarity query target cs ∧
      calculateSimilarity query target cs < 1 ∧
      ∀ (q t : List Char) (cs' : Bool),
        calculateSimilarity q t cs' = calculateSimilarityNoPrefixRule q t cs' := by
  have hne' : foldCase cs query ≠ foldCase cs target := fun h => hne h.symm
  have hlt : (foldCase cs query).length < (foldCase cs target).length :=
    infix_length_lt hinf hne'
  have ht0 : (0 : ℚ) < ((foldCase cs target).length : ℚ) := by
    have : 0 < (foldCase cs target).length := Nat.lt_of_le_of_lt (Nat.zero_le _) hlt
    exact_mod_cast this
  have hx0 : (0 : ℚ) ≤ ((foldCase cs query).length : ℚ) /
      ((foldCase cs target).length : ℚ) := div_nonneg (by positivity) (le_of_lt ht0)
  have hx1 : ((foldCase cs query).length : ℚ) /
      ((foldCase cs target).length : ℚ) < 1 := by
    rw [div_lt_one ht0]
    exact_mod_cast hlt
  rw [calculateSimilarity_eq, if_neg hne', if_pos hinf]
  refine ⟨by simp [foldCase_length], by nlinarith, by nlinarith,
    fun q t cs' => calculateSimilarity_eq_noPrefixRule q t cs'⟩

/-- C3 witness: the containment formula evaluated at a concrete proper
prefix match (which is also a containment match). -/
theorem containment_formula_witness :
    (['d', 'h'] : List Char) ≠ [] ∧
      foldCase false ['d', 'h'] <:+: foldCase false ['D', 'h', 'a'] ∧
      foldCase false ['D', 'h', 'a'] ≠ foldCase false ['d', 'h'] ∧
      calculateSimilarity ['d', 'h'] ['D', 'h', 'a'] false =
        0.8 + (((['d', 'h'] : List Char).length : ℚ) /
          ((['D', 'h', 'a'] : List Char).length : ℚ)) * 0.2 :=
  ⟨by decide, by decide, by decide,
    (containment_formula ['d', 'h'] ['D', 'h', 'a'] false (by decide) (by decide)
      (by decide)).1⟩

theorem search_ok_elim {dv dt uz : List Location} {query : List Char}
    {o : SearchOptions} {res : LocationSearchResult}
    (h : search dv dt uz query o = Except.ok res) :
    (trimStr query = [] ∧ res = ⟨[], [], []⟩) ∨
    (trimStr query ≠ [] ∧
      categoryOk dv (trimStr query) o LocationType.division res.divisions ∧
      categoryOk dt (trimStr query) o LocationType.district res.districts ∧
      categoryOk uz (trimStr query) o LocationType.upazila res.upazilas) := by
  unfold search at h
  by_cases htrim : trimStr query = []
  · rw [if_pos htrim] at h
    left
    refine ⟨htrim, ?_⟩
    cases h
    rfl
  · right
    rw [if_neg htrim] at h
    have hcat : ∀ (data : List Location) (ty : LocationType)
        (out : List SearchResult),
        (if ty ∈ o.types then rankCategory data (trimStr query) o
         else Except.ok []) = Except.ok out →
        categoryOk data (trimStr query) o ty out := by
      intro data ty out hout
      by_cases hmem : ty ∈ o.types
      · rw [if_pos hmem] at hout
        left
        refine ⟨hmem, ?_⟩
        unfold rankCategory at hout
        cases hcm : collectMatches data (trimStr query) o with
        | error e => rw [hcm] at hout; exact absurd hout (by simp [Except.map])
        | ok ms =>
            rw [hcm] at hout
            refine ⟨ms, rfl, ?_⟩
            simpa [Except.map] using hout.symm
      · rw [if_neg hmem] at hout
        right
        exact ⟨hmem, by cases hout; rfl⟩
    split at h
    next e heq => exact absurd h (by simp)
    next ds heqd =>
      split at h
      next e heq => exact absurd h (by simp)
      next ts heqt =>
        split at h
        next e heq => exact absurd h (by simp)
        next us hequ =>
          cases h
          exact ⟨htrim, hcat dv _ _ heqd, hcat dt _ _ heqt, hcat uz _ _ hequ⟩

/-! ## C1: totality and its failure -/

theorem fieldScores_ne_nil {item : Location} {query : List Char}
    {o : SearchOptions}
    (hflag : o.includeEnglish = true ∨ o.includeBengali = true ∨
      o.includeSlug = true) :
    fieldScores item query o ≠ [] := by
  rcases hflag with h | h | h <;> simp [fieldScores, h]

theorem searchInItem_isOk (item : Location) (query : List Char)
    (o : SearchOptions)
    (hflag : o.includeEnglish = true ∨ o.includeBengali = true ∨
      o.includeSlug = true) :
    ∃ r, searchInItem item query o = Except.ok r := by
  unfold searchInItem
  cases hfs : fieldScores item query o with
  | nil => exact absurd hfs (fieldScores_ne_nil hflag)
  | cons x xs =>
      show ∃ r,
        (if (xs.foldl
              (fun best current => if current.1 > best.1 then current else best) x).1 ≥
            o.threshold then
          Except.ok (some
            ⟨item,
              (xs.foldl
                (fun best current => if current.1 > best.1 then current else best) x).1,
              (xs.foldl
                (fun best current => if current.1 > best.1 then current else best) x).2⟩)
        else Except.ok none) = Except.ok r
      by_cases hth : (xs.foldl
          (fun best current => if current.1 > best.1 then current else best) x).1 ≥
          o.threshold
      · exact ⟨_, by rw [if_pos hth]⟩
      · exact ⟨none, by rw [if_neg hth]⟩

theorem collectMatches_isOk (data : List Location) (query : List Char)
    (o : SearchOptions)
    (hflag : o.includeEnglish = true ∨ o.includeBengali = true ∨
      o.includeSlug = true) :
    ∃ ms, collectMatches data query o = Except.ok ms := by
  induction data with
  | nil => exact ⟨[], rfl⟩
  | cons item rest ih =>
      obtain ⟨r, hr⟩ := searchInItem_isOk item query o hflag
      obtain ⟨ms, hms⟩ := ih
      cases r with
      | none => exact ⟨ms, by rw [collectMatches, hr]; exact hms⟩
      | some s =>
          refine ⟨s :: ms, ?_⟩
          rw [collectMatches, hr]
          show (collectMatches rest query o).map (fun l => s :: l) =
            Except.ok (s :: ms)
          rw [hms]
          rfl

theorem rankCategory_isOk (data : List Location) (query : List Char)
    (o : SearchOptions)
    (hflag : o.includeEnglish = true ∨ o.includeBengali = true ∨
      o.includeSlug = true) :
    ∃ l, rankCategory data query o = Except.ok l := by
  obtain ⟨ms, hms⟩ := collectMatches_isOk data query o hflag
  exact ⟨_, by rw [rankCategory, hms]; rfl⟩

theorem search_isOk (dv dt uz : List Location) (query : List Char)
    (o : SearchOptions)
    (hflag : o.includeEnglish = true ∨ o.includeBengali = true ∨
      o.includeSlug = true) :
    ∃ res, search dv dt uz query o = Except.ok res := by
  unfold search
  by_cases htrim : trimStr query = []
  · exact ⟨_, by rw [if_pos htrim]⟩
  · rw [if_neg htrim]
    have hcat : ∀ data : List Location, ∀ ty : LocationType,
        ∃ out, (if ty ∈ o.types then rankCategory data (trimStr query) o
          else Except.ok []) = Except.ok out := by
      intro data ty
      by_cases hmem : ty ∈ o.types
      · obtain ⟨l, hl⟩ := rankCategory_isOk data (trimStr query) o hflag
        exact ⟨l, by rw [if_pos hmem, hl]⟩
      · exact ⟨[], by rw [if_neg hmem]⟩
    obtain ⟨ds, hds⟩ := hcat dv LocationType.division
    obtain ⟨ts, hts⟩ := hcat dt LocationType.district
    obtain ⟨us, hus⟩ := hcat uz LocationType.upazila
    refine ⟨⟨ds, ts, us⟩, ?_⟩
    rw [hds, hts, hus]

/-- C1 (amended): the search operations return normally whenever at least
one of the three field flags is enabled — and `searchBengali` /
`searchEnglish` always do, as they force a flag on; an empty trimmed query
also short-circuits to the empty result.  (The unamended claim fails: see
the counterexample, where all three flags are disabled and the empty-array
`reduce` throws.) -/
theorem search_total_amended (dv dt uz : List Location) (query : List Char)
    (o : SearchOptions) :
    (o.includeEnglish = true ∨ o.includeBengali = true ∨ o.includeSlug = true →
      (∃ r, search dv dt uz query o = Except.ok r) ∧
      (∃ r, quickSearch dv dt uz query o = Except.ok r) ∧
      (∃ r, fuzzySearch dv dt uz query o = Except.ok r) ∧
      (∃ r, searchDivisions dv dt uz query o = Except.ok r) ∧
      (∃ r, searchDistricts dv dt uz query o = Except.ok r) ∧
      (∃ r, searchUpazilas dv dt uz query o = Except.ok r)) ∧
    (trimStr query = [] →
      search dv dt uz query o = Except.ok ⟨[], [], []⟩) ∧
    (∃ r, searchBengali dv dt uz query o = Except.ok r) ∧
    (∃ r, searchEnglish dv dt uz query o = Except.ok r) := by
  refine ⟨?_, ?_, ?_, ?_⟩
  · intro hflag
    refine ⟨search_isOk dv dt uz query o hflag, ?_, ?_, ?_, ?_, ?_⟩
    · obtain ⟨res, hres⟩ := search_isOk dv dt uz query { o with limit := 1 } hflag
      exact ⟨_, by rw [quickSearch, hres]; rfl⟩
    · exact search_isOk dv dt uz query { o with threshold := 0.4 } hflag
    · obtain ⟨res, hres⟩ := search_isOk dv dt uz query
        { o with types := [LocationType.division] } hflag
      exact ⟨_, by rw [searchDivisions, hres]; rfl⟩
    · obtain ⟨res, hres⟩ := search_isOk dv dt uz query
        { o with types := [LocationType.district] } hflag
      exact ⟨_, by rw [searchDistricts, hres]; rfl⟩
    · obtain ⟨res, hres⟩ := search_isOk dv dt uz query
        { o with types := [LocationType.upazila] } hflag
      exact ⟨_, by rw [searchUpazilas, hres]; rfl⟩
  · intro htrim
    rw [search, if_pos htrim]
  · exact search_isOk dv dt uz query
      { o with includeEnglish := false, includeBengali := true, includeSlug := false }
      (Or.inr (Or.inl rfl))
  · exact search_isOk dv dt uz query
      { o with includeEnglish := true, includeBengali := false, includeSlug := false }
      (Or.inl rfl)

/-- C1 witness: the amended totality at a concrete query/options pair. -/
theorem search_total_amended_witness :
    ∃ r, search [] [] [] ['d', 'h'] defaultSearchOptions = Except.ok r :=
  ((search_total_amended [] [] [] ['d', 'h'] defaultSearchOptions).1
    (Or.inl rfl)).1

/-- C1 counterexample: with all three field flags disabled, a non-empty
query over a non-empty catalog makes `scores.reduce` throw: `search` does
not return normally, contradicting the claim that no option value can make
it throw. -/
theorem search_throws_counterexample :
    search [dhakaDivision] [] [] ['a']
      { defaultSearchOptions with
          includeEnglish := false, includeBengali := false,
          includeSlug := false } = Except.error () := by
  rfl

/-! ## C10: the three category sequences and the `types` gate -/

theorem categoryOk_not_mem {data : List Location} {tq : List Char}
    {o : SearchOptions} {ty : LocationType} {out : List SearchResult}
    (hc : categoryOk data tq o ty out) (hmem : ty ∉ o.types) : out = [] := by
  rcases hc with ⟨hm, _⟩ | ⟨_, he⟩
  · exact absurd hm hmem
  · exact he

/-- C10: the result of a (successful) `search` always carries all three
category sequences — this is structural in `LocationSearchResult` — and a
category not listed in `options.types` is present as the empty sequence, so
only listed categories can contribute non-empty sequences. -/
theorem search_types_gate (dv dt uz : List Location) (query : List Char)
    (o : SearchOptions) (res : LocationSearchResult)
    (h : search dv dt uz query o = Except.ok res) :
    res = ⟨res.divisions, res.districts, res.upazilas⟩ ∧
      (LocationType.division ∉ o.types → res.divisions = []) ∧
      (LocationType.district ∉ o.types → res.districts = []) ∧
      (LocationType.upazila ∉ o.types → res.upazilas = []) := by
  refine ⟨rfl, ?_⟩
  rcases search_ok_elim h with ⟨_, hres⟩ | ⟨_, hd, ht, hu⟩
  · subst hres
    exact ⟨fun _ => rfl, fun _ => rfl, fun _ => rfl⟩
  · exact ⟨fun hm => categoryOk_not_mem hd hm, fun hm => categoryOk_not_mem ht hm,
      fun hm => categoryOk_not_mem hu hm⟩

/-- C10 witness: searching with only the district category enabled leaves
the division and upazila sequences present but empty. -/
theorem search_types_gate_witness :
    search [dhakaDivision] [] [] ['d']
        { defaultSearchOptions with types := [LocationType.district] } =
      Except.ok ⟨[], [], []⟩ ∧
    (⟨[], [], []⟩ : LocationSearchResult).divisions = [] :=
  ⟨by rfl,
    (search_types_gate [dhakaDivision] [] [] ['d']
        { defaultSearchOptions with types := [LocationType.district] }
        ⟨[], [], []⟩ (by rfl)).2.1 (by decide)⟩

/-! ## C4: per-category sequences are sorted and stable -/

theorem sliceEnd_front {γ : Type} (l : List γ) (e : Int) : sliceEnd l e <+: l :=
  List.take_prefix _ l

theorem scoreKey_pairwise_imp {l : List SearchResult}
    (h : List.Pairwise (fun a b => scoreKey a ≤ scoreKey b) l) :
    List.Pairwise (fun a b : SearchResult => b.score ≤ a.score) l := by
  refine h.imp ?_
  intro a b hab
  simpa [scoreKey] using hab

theorem categoryOk_sorted {data : List Location} {tq : List Char}
    {o : SearchOptions} {ty : LocationType} {out : List SearchResult}
    (hc : categoryOk data tq o ty out) :
    List.Pairwise (fun a b : SearchResult => b.score ≤ a.score) out := by
  rcases hc with ⟨_, ms, _, hout⟩ | ⟨_, hout⟩
  · subst hout
    exact (scoreKey_pairwise_imp (sortK_sorted scoreKey ms)).sublist
      (sliceEnd_front _ _).sublist
  · subst hout
    exact List.Pairwise.nil

/-- Restating a score-equality filter as a filter on the sort key. -/
theorem filter_score_eq_key (s : ℚ) (l : List SearchResult) :
    l.filter (fun r => decide (r.score = s)) =
      l.filter (fun r => decide (scoreKey r = -s)) := by
  apply List.filter_congr
  intro r _
  rw [decide_eq_decide]
  constructor
  · intro h; rw [scoreKey, h]
  · intro h; have := neg_inj.mp (by simpa [scoreKey] using h); exact this

theorem categoryOk_stable {data : List Location} {tq : List Char}
    {o : SearchOptions} {ty : LocationType} {out : List SearchResult}
    {ms : List SearchResult}
    (hc : categoryOk data tq o ty out)
    (hms : collectMatches data tq o = Except.ok ms) (s : ℚ) :
    out.filter (fun r => decide (r.score = s)) <+:
      ms.filter (fun r => decide (r.score = s)) := by
  rcases hc with ⟨_, ms', hms', hout⟩ | ⟨_, hout⟩
  · rw [hms] at hms'
    injection hms' with hms'
    subst hms'
    subst hout
    have h1 : (sliceEnd (sortK scoreKey ms) o.limit).filter
        (fun r => decide (r.score = s)) <+:
        (sortK scoreKey ms).filter (fun r => decide (r.score = s)) :=
      (sliceEnd_front _ _).filter _
    have h2 : (sortK scoreKey ms).filter (fun r => decide (r.score = s)) =
        ms.filter (fun r => decide (r.score = s)) := by
      rw [filter_score_eq_key s (sortK scoreKey ms), filter_score_eq_key s ms]
      rw [sortK_filter scoreKey (fun k => decide (k = -s)) ms]
      refine sortK_of_const scoreKey (-s) _ ?_
      intro z hz
      have := List.of_mem_filter hz
      simpa using this
    rw [h2] at h1
    exact h1
  · subst hout
    simp

/-- C4: every per-category sequence of a successful `search` is sorted by
non-increasing score, and entities with equal scores appear in catalog
iteration order — the filter of the output at any score value is a prefix of
the filter of the collected (catalog-ordered) matches at that value. -/
theorem search_sorted_stable (dv dt uz : List Location) (query : List Char)
    (o : SearchOptions) (res : LocationSearchResult)
    (h : search dv dt uz query o = Except.ok res) :
    (List.Pairwise (fun a b : SearchResult => b.score ≤ a.score) res.divisions ∧
      List.Pairwise (fun a b : SearchResult => b.score ≤ a.score) res.districts ∧
      List.Pairwise (fun a b : SearchResult => b.score ≤ a.score) res.upazilas) ∧
    (∀ ms, collectMatches dv (trimStr query) o = Except.ok ms → ∀ s : ℚ,
      res.divisions.filter (fun r => decide (r.score = s)) <+:
        ms.filter (fun r => decide (r.score = s))) ∧
    (∀ ms, collectMatches dt (trimStr query) o = Except.ok ms → ∀ s : ℚ,
      res.districts.filter (fun r => decide (r.score = s)) <+:
        ms.filter (fun r => decide (r.score = s))) ∧
    (∀ ms, collectMatches uz (trimStr query) o = Except.ok ms → ∀ s : ℚ,
      res.upazilas.filter (fun r => decide (r.score = s)) <+:
        ms.filter (fun r => decide (r.score = s))) := by
  rcases search_ok_elim h with ⟨_, hres⟩ | ⟨_, hd, ht, hu⟩
  · subst hres
    refine ⟨⟨List.Pairwise.nil, List.Pairwise.nil, List.Pairwise.nil⟩, ?_, ?_, ?_⟩ <;>
      · intro ms _ s
        simp
  · exact ⟨⟨categoryOk_sorted hd, categoryOk_sorted ht, categoryOk_sorted hu⟩,
      fun ms hms s => categoryOk_stable hd hms s,
      fun ms hms s => categoryOk_stable ht hms s,
      fun ms hms s => categoryOk_stable hu hms s⟩

/-- C4 witness: sortedness of a concrete one-division search result. -/
theorem search_sorted_stable_witness :
    List.Pairwise (fun a b : SearchResult => b.score ≤ a.score)
      (⟨[⟨dhakaDivision, 21/25, Field.name⟩], [], []⟩ :
        LocationSearchResult).divisions :=
  (search_sorted_stable [dhakaDivision] [] [] ['a'] defaultSearchOptions
    ⟨[⟨dhakaDivision, 21/25, Field.name⟩], [], []⟩
    (by
      norm_num +decide [search, rankCategory, collectMatches, searchInItem,
        fieldScores, calculateSimilarity, foldCase, lowerStr, trimStr,
        levenshteinDistance, levAux, levGo, defaultSearchOptions, dhakaDivision,
        sortK, insertK, sliceEnd, scoreKey, Except.map, List.foldl, List.take,
        Int.toNat])).1.1

/-! ## C5: the per-category cap -/

theorem sliceEnd_length_le {γ : Type} (l : List γ) (e : Int) (he : 0 ≤ e) :
    ((sliceEnd l e).length : Int) ≤ e := by
  unfold sliceEnd
  rw [if_neg (not_lt.mpr he)]
  have h1 : (l.take e.toNat).length ≤ e.toNat := by
    simp [List.length_take]
  calc ((l.take e.toNat).length : Int) ≤ (e.toNat : Int) := by exact_mod_cast h1
    _ = e := Int.toNat_of_nonneg he

theorem categoryOk_length {data : List Location} {tq : List Char}
    {o : SearchOptions} {ty : LocationType} {out : List SearchResult}
    (hc : categoryOk data tq o ty out) (he : 0 ≤ o.limit) :
    ((out.length : Int)) ≤ o.limit := by
  rcases hc with ⟨_, ms, _, hout⟩ | ⟨_, hout⟩
  · subst hout
    exact sliceEnd_length_le _ _ he
  · subst hout
    simpa using he

/-- C5 (amended): for a **non-negative** limit, no per-category sequence of
a successful `search` has more than `options.limit` entries; the cap is
applied per category.  (The unamended claim, over *every* options value,
fails for negative limits: see the counterexample, where `slice(0, -1)`
keeps all but the last match.) -/
theorem limit_cap_amended (dv dt uz : List Location) (query : List Char)
    (o : SearchOptions) (res : LocationSearchResult)
    (h : search dv dt uz query o = Except.ok res) (hlim : 0 ≤ o.limit) :
    ((res.divisions.length : Int)) ≤ o.limit ∧
      ((res.districts.length : Int)) ≤ o.limit ∧
      ((res.upazilas.length : Int)) ≤ o.limit := by
  rcases search_ok_elim h with ⟨_, hres⟩ | ⟨_, hd, ht, hu⟩
  · subst hres
    exact ⟨by simpa using hlim, by simpa using hlim, by simpa using hlim⟩
  · exact ⟨categoryOk_length hd hlim, categoryOk_length ht hlim,
      categoryOk_length hu hlim⟩

/-- C5 witness: the cap at a concrete query and the default limit of 10. -/
theorem limit_cap_amended_witness :
    (0 : Int) ≤ defaultSearchOptions.limit ∧
      (((⟨[⟨dhakaDivision, 21/25, Field.name⟩], [], []⟩ :
        LocationSearchResult).divisions.length : Int)) ≤
        defaultSearchOptions.limit :=
  ⟨by decide,
    (limit_cap_amended [dhakaDivision] [] [] ['a'] defaultSearchOptions
      ⟨[⟨dhakaDivision, 21/25, Field.name⟩], [], []⟩
      (by
        norm_num +decide [search, rankCategory, collectMatches, searchInItem,
          fieldScores, calculateSimilarity, foldCase, lowerStr, trimStr,
          levenshteinDistance, levAux, levGo, defaultSearchOptions, dhakaDivision,
          sortK, insertK, sliceEnd, scoreKey, Except.map, List.foldl, List.take,
          Int.toNat])
      (by decide)).1⟩

/-- C5 counterexample: with `limit := -1` and two matching divisions,
`slice(0, -1)` returns one entry — and one entry is more than the requested
limit of `-1`, so "never more than `options.limit` entries for every options
value" fails (JavaScript's `slice` treats a negative end as an offset from
the end of the array, not as an empty cap). -/
theorem limit_cap_counterexample :
    search [dhakaDivision, barishalDivision] [] [] ['a']
        { defaultSearchOptions with limit := -1 } =
      Except.ok ⟨[⟨dhakaDivision, 21/25, Field.name⟩], [], []⟩ ∧
    ¬ ((([⟨dhakaDivision, 21/25, Field.name⟩] :
        List SearchResult).length : Int) ≤
        ({ defaultSearchOptions with limit := -1 } : SearchOptions).limit) := by
  constructor
  · norm_num +decide [search, rankCategory, collectMatches, searchInItem,
      fieldScores, calculateSimilarity, foldCase, lowerStr, trimStr,
      levenshteinDistance, levAux, levGo, defaultSearchOptions, dhakaDivision,
      barishalDivision, sortK, insertK, sliceEnd, scoreKey, Except.map,
      List.foldl, List.take, Int.toNat]
  · decide

/-! ## C8: `fuzzySearch` versus the default threshold -/

theorem collectMatches_nil (query : List Char) (o : SearchOptions) :
    collectMatches [] query o = Except.ok [] := rfl

theorem collectMatches_cons (item : Location) (rest : List Location)
    (query : List Char) (o : SearchOptions) :
    collectMatches (item :: rest) query o =
      match searchInItem item query o with
      | Except.error e => Except.error e
      | Except.ok none => collectMatches rest query o
      | Except.ok (some r) =>
          (collectMatches rest query o).map (fun l => r :: l) := rfl

theorem searchInItem_cons {item : Location} {query : List Char}
    {o : SearchOptions} {x : ℚ × Field} {xs : List (ℚ × Field)}
    (hfs : fieldScores item query o = x :: xs) :
    searchInItem item query o =
      (if (xs.foldl
            (fun best current => if current.1 > best.1 then current else best) x).1 ≥
          o.threshold then
        Except.ok (some
          ⟨item,
            (xs.foldl
              (fun best current => if current.1 > best.1 then current else best) x).1,
            (xs.foldl
              (fun best current => if current.1 > best.1 then current else best) x).2⟩)
      else Except.ok none) := by
  unfold searchInItem
  rw [hfs]

/-- Raising the threshold of `collectMatches` filters the collected matches
by the new threshold (the field scores themselves do not depend on it). -/
theorem collectMatches_higher_threshold {τ : ℚ} {data : List Location}
    {q : List Char} {o : SearchOptions} (hle : o.threshold ≤ τ)
    {ms : List SearchResult} (h : collectMatches data q o = Except.ok ms) :
    collectMatches data q { o with threshold := τ } =
      Except.ok (ms.filter (fun r => decide (τ ≤ r.score))) := by
  induction data generalizing ms with
  | nil =>
    rw [collectMatches_nil] at h
    injection h with h
    subst h
    rw [collectMatches_nil]
    rfl
  | cons item rest ih =>
    rw [collectMatches_cons] at h
    rw [collectMatches_cons]
    cases hfs : fieldScores item q o with
    | nil =>
      have herr : searchInItem item q o = Except.error () := by
        unfold searchInItem; rw [hfs]
      rw [herr] at h
      exact absurd h (by simp)
    | cons x xs =>
      have hfs2 : fieldScores item q { o with threshold := τ } = x :: xs := hfs
      have hsio := searchInItem_cons hfs
      have hsio2 :
          searchInItem item q { o with threshold := τ } =
            (if (xs.foldl
                  (fun best current => if current.1 > best.1 then current else best)
                  x).1 ≥ τ then
              Except.ok (some
                ⟨item,
                  (xs.foldl
                    (fun best current => if current.1 > best.1 then current else best)
                    x).1,
                  (xs.foldl
                    (fun best current => if current.1 > best.1 then current else best)
                    x).2⟩)
            else Except.ok none) := searchInItem_cons hfs2
      by_cases h2 : (xs.foldl
          (fun best current => if current.1 > best.1 then current else best) x).1 ≥ τ
      · have h1 : (xs.foldl
            (fun best current => if current.1 > best.1 then current else best) x).1 ≥
            o.threshold := le_trans hle h2
        rw [hsio, if_pos h1] at h
        rw [hsio2, if_pos h2]
        cases hrest : collectMatches rest q o with
        | error e =>
          rw [hrest] at h
          exact absurd h (by simp [Except.map])
        | ok ms' =>
          rw [hrest] at h
          simp only [Except.map] at h
          injection h with h
          subst h
          rw [ih hrest]
          simp [Except.map, List.filter_cons, h2]
      · rw [hsio2, if_neg h2]
        by_cases h1 : (xs.foldl
            (fun best current => if current.1 > best.1 then current else best) x).1 ≥
            o.threshold
        · rw [hsio, if_pos h1] at h
          cases hrest : collectMatches rest q o with
          | error e =>
            rw [hrest] at h
            exact absurd h (by simp [Except.map])
          | ok ms' =>
            rw [hrest] at h
            simp only [Except.map] at h
            injection h with h
            subst h
            rw [ih hrest]
            simp [List.filter_cons, h2]
        · rw [hsio, if_neg h1] at h
          exact ih h

theorem take_prefix_take {γ : Type} {m n : Nat} (h : m ≤ n) (l : List γ) :
    l.take m <+: l.take n := by
  have heq : l.take m = (l.take n).take m := by
    rw [List.take_take, Nat.min_eq_left h]
  rw [heq]
  exact List.take_prefix m (l.take n)

theorem sliceEnd_mono_front {γ : Type} {l1 l2 : List γ} (hp : l1 <+: l2)
    (e : Int) : sliceEnd l1 e <+: sliceEnd l2 e := by
  obtain ⟨t, rfl⟩ := hp
  unfold sliceEnd
  by_cases he : e < 0
  · rw [if_pos he, if_pos he]
    have hn : ((l1.length : Int) + e).toNat ≤
        (((l1 ++ t).length : Int) + e).toNat := by
      have : (l1.length : Int) + e ≤ ((l1 ++ t).length : Int) + e := by
        simp [List.length_append]
      omega
    have hn1 : ((l1.length : Int) + e).toNat ≤ l1.length := by omega
    rw [show l1.take (((l1.length : Int) + e).toNat) =
        (l1 ++ t).take (((l1.length : Int) + e).toNat) from
      (List.take_append_of_le_length hn1).symm]
    exact take_prefix_take hn _
  · rw [if_neg he, if_neg he]
    by_cases hn : e.toNat ≤ l1.length
    · rw [List.take_append_of_le_length hn]
    · rw [List.take_of_length_le (le_of_not_le hn)]
      rw [List.take_append_eq_append_take, List.take_of_length_le (le_of_not_le hn)]
      exact List.prefix_append _ _

/-- Restating a score-bound filter as a filter on the sort key. -/
theorem filter_score_ge_key (τ : ℚ) (l : List SearchResult) :
    l.filter (fun r => decide (τ ≤ r.score)) =
      l.filter (fun r => decide (scoreKey r ≤ -τ)) := by
  apply List.filter_congr
  intro r _
  rw [decide_eq_decide, scoreKey]
  constructor
  · intro h; exact neg_le_neg h
  · intro h; simpa using neg_le_neg h

theorem categoryOk_threshold_mono {data : List Location} {tq : List Char}
    {o : SearchOptions} {τ : ℚ} {ty : LocationType}
    {outD outF : List SearchResult}
    (hD : categoryOk data tq o ty outD)
    (hF : categoryOk data tq { o with threshold := τ } ty outF)
    (hle : o.threshold ≤ τ) : outF <+: outD := by
  rcases hD with ⟨hm, msD, hmsD, houtD⟩ | ⟨hm, houtD⟩
  · rcases hF with ⟨_, msF, hmsF, houtF⟩ | ⟨hm', _⟩
    · have hfil := collectMatches_higher_threshold hle hmsD
      rw [hmsF] at hfil
      injection hfil with hfil
      subst houtD
      subst houtF
      subst hfil
      have hsort : sortK scoreKey
          (msD.filter (fun r => decide (τ ≤ r.score))) <+: sortK scoreKey msD := by
        rw [filter_score_ge_key τ msD,
          ← sortK_filter scoreKey (fun k => decide (k ≤ -τ)) msD]
        exact filter_le_front scoreKey (-τ) (sortK scoreKey msD)
          (sortK_sorted scoreKey msD)
      exact sliceEnd_mono_front hsort _
    · exact absurd hm hm'
  · rcases hF with ⟨hm', _, _⟩ | ⟨_, houtF⟩
    · exact absurd hm' hm
    · subst houtF
      exact List.nil_prefix

/-- C8 (amended): `fuzzySearch` is exactly `search` with the threshold
overridden to 0.4 — numerically **higher** than the default 0.3, hence more
restrictive, not more permissive: every match returned by `fuzzySearch` is
also returned by `search` under the default threshold (each fuzzy category
sequence is a prefix of the corresponding default one).  (The unamended
claim — a lower threshold, default-search results preserved by
`fuzzySearch` — fails: see the counterexample.) -/
theorem fuzzy_restrictive_amended (dv dt uz : List Location) (query : List Char)
    (o : SearchOptions) (resF resD : LocationSearchResult)
    (hth : o.threshold = 0.3)
    (hF : fuzzySearch dv dt uz query o = Except.ok resF)
    (hD : search dv dt uz query o = Except.ok resD) :
    fuzzySearch dv dt uz query o =
        search dv dt uz query { o with threshold := 0.4 } ∧
      resF.divisions <+: resD.divisions ∧
      resF.districts <+: resD.districts ∧
      resF.upazilas <+: resD.upazilas := by
  refine ⟨rfl, ?_⟩
  have hle : o.threshold ≤ (0.4 : ℚ) := by rw [hth]; norm_num
  rcases search_ok_elim hD with ⟨htr, hres⟩ | ⟨htr, hd, ht, hu⟩
  · rcases search_ok_elim hF with ⟨_, hresF⟩ | ⟨htr', _⟩
    · subst hres hresF
      exact ⟨ List.nil_prefix, List.nil_prefix, List.nil_prefix⟩
    · exact absurd htr htr'
  · rcases search_ok_elim hF with ⟨htr', _⟩ | ⟨_, hdF, htF, huF⟩
    · exact absurd htr' htr
    · exact ⟨categoryOk_threshold_mono hd hdF hle,
        categoryOk_threshold_mono ht htF hle,
        categoryOk_threshold_mono hu huF hle⟩

/-- C8 witness: the amended subset relation at a concrete input. -/
theorem fuzzy_restrictive_amended_witness :
    defaultSearchOptions.threshold = 0.3 ∧
      (⟨[⟨dhakaDivision, 21/25, Field.name⟩], [], []⟩ :
          LocationSearchResult).divisions <+:
        (⟨[⟨dhakaDivision, 21/25, Field.name⟩], [], []⟩ :
          LocationSearchResult).divisions :=
  ⟨rfl,
    (fuzzy_restrictive_amended [dhakaDivision] [] [] ['a']
      defaultSearchOptions ⟨[⟨dhakaDivision, 21/25, Field.name⟩], [], []⟩
      ⟨[⟨dhakaDivision, 21/25, Field.name⟩], [], []⟩ rfl
      (by
        norm_num +decide [fuzzySearch, search, rankCategory, collectMatches,
          searchInItem, fieldScores, calculateSimilarity, foldCase, lowerStr,
          trimStr, levenshteinDistance, levAux, levGo, defaultSearchOptions,
          dhakaDivision, sortK, insertK, sliceEnd, scoreKey, Except.map,
          List.foldl, List.take, Int.toNat])
      (by
        norm_num +decide [search, rankCategory, collectMatches, searchInItem,
          fieldScores, calculateSimilarity, foldCase, lowerStr, trimStr,
          levenshteinDistance, levAux, levGo, defaultSearchOptions, dhakaDivision,
          sortK, insertK, sliceEnd, scoreKey, Except.map, List.foldl, List.take,
          Int.toNat])).2.1⟩

/-- C8 counterexample: `fuzzySearch` overrides the threshold to 0.4, which
is numerically **higher** than the default 0.3 — a match with score `1/3`
is returned by `search` under the default options but dropped by
`fuzzySearch`, so `fuzzySearch` is not more permissive than the default. -/
theorem fuzzy_permissive_counterexample :
    search [abcLocation] [] [] ['a', 'y', 'z'] defaultSearchOptions =
        Except.ok ⟨[⟨abcLocation, 1/3, Field.name⟩], [], []⟩ ∧
      fuzzySearch [abcLocation] [] [] ['a', 'y', 'z'] defaultSearchOptions =
        Except.ok ⟨[], [], []⟩ ∧
      defaultSearchOptions.threshold <
        ({ defaultSearchOptions with threshold := 0.4 } : SearchOptions).threshold := by
  refine ⟨?_, ?_, ?_⟩
  · norm_num +decide [search, rankCategory, collectMatches, searchInItem,
      fieldScores, calculateSimilarity, foldCase, lowerStr, trimStr,
      levenshteinDistance, levAux, levGo, defaultSearchOptions, abcLocation,
      sortK, insertK, sliceEnd, scoreKey, Except.map, List.foldl, List.take,
      Int.toNat]
  · norm_num +decide [fuzzySearch, search, rankCategory, collectMatches,
      searchInItem, fieldScores, calculateSimilarity, foldCase, lowerStr,
      trimStr, levenshteinDistance, levAux, levGo, defaultSearchOptions,
      abcLocation, sortK, insertK, sliceEnd, scoreKey, Except.map, List.foldl,
      List.take, Int.toNat]
  · norm_num [defaultSearchOptions]

/-! ## C6: autocomplete ordering, stability and the unused slug flag -/

/-- C6: the sorted autocomplete list is ordered by ascending priority —
every primary-name match (priority 1) precedes every secondary-name-only
match (priority 2) — and entries of equal priority keep the collection
order (categories in divisions/districts/upazilas order, entities in
catalog order); the output is the truncation of that sorted list (taking a
prefix preserves both properties), and the `includeSlug` flag is never
consulted by autocomplete. -/
theorem autocomplete_order (dv dt uz : List Location) (query : List Char)
    (o : SearchOptions) :
    List.Pairwise (fun a b : AutocompleteEntryP => a.priority ≤ b.priority)
      (sortK priorityKey (autocompleteCollect dv dt uz
        (foldCase o.caseSensitive (trimStr query)) o)) ∧
    (∀ p : Nat,
      (sortK priorityKey (autocompleteCollect dv dt uz
          (foldCase o.caseSensitive (trimStr query)) o)).filter
          (fun e => decide (e.priority = p)) =
        (autocompleteCollect dv dt uz
          (foldCase o.caseSensitive (trimStr query)) o).filter
          (fun e => decide (e.priority = p))) ∧
    autocomplete dv dt uz query o =
      (if trimStr query = [] then []
       else
        (sliceEnd (sortK priorityKey (autocompleteCollect dv dt uz
          (foldCase o.caseSensitive (trimStr query)) o)) o.limit).map
          AutocompleteEntryP.toEntry) ∧
    (∀ b : Bool, autocomplete dv dt uz query { o with includeSlug := b } =
      autocomplete dv dt uz query o) := by
  refine ⟨?_, ?_, rfl, ?_⟩
  · exact sortK_sorted priorityKey _
  · intro p
    show (sortK priorityKey _).filter (fun e => decide (priorityKey e = p)) = _
    rw [sortK_filter priorityKey (fun k => decide (k = p))]
    refine sortK_of_const priorityKey p _ ?_
    intro z hz
    have := List.of_mem_filter hz
    simpa using this
  · intro b
    cases o
    rfl

/-! ## C9: case folding in the autocomplete prefix tests -/

/-- C9 counterexample: with `caseSensitive = false` and the folded query
`"dhaka"`, the source's `checkStartsWith` does not match an entity with
secondary name `"Dhaka"` (the raw `bnName` is compared against the folded
query), while the spec's both-sides-folded test does; consequently
`autocomplete` for the query `"DHAKA"` misses the entity entirely. -/
theorem autocomplete_fold_counterexample :
    checkStartsWith defaultSearchOptions ['d', 'h', 'a', 'k', 'a'] ['x']
        ['D', 'h', 'a', 'k', 'a'] LocationType.division latinBnLocation = [] ∧
      checkStartsWithSpec defaultSearchOptions ['d', 'h', 'a', 'k', 'a'] ['x']
        ['D', 'h', 'a', 'k', 'a'] LocationType.division latinBnLocation =
        [⟨['x'], ['D', 'h', 'a', 'k', 'a'], LocationType.division,
          latinBnLocation, 2⟩] ∧
      autocomplete [latinBnLocation] [] [] ['D', 'H', 'A', 'K', 'A']
        defaultSearchOptions = [] := by
  refine ⟨by decide, by decide, by decide⟩

/-- C9 (amended): with `caseSensitive = false`, the folded query is
compared against the **folded** primary name but against the **raw**
secondary name; the two tests agree with the spec's both-sides-folded
reading exactly when the secondary name is unchanged by folding — which
holds for caseless scripts such as Bengali. -/
theorem autocomplete_fold_amended (o : SearchOptions) (q name bnName : List Char)
    (ty : LocationType) (item : Location) (hcs : o.caseSensitive = false) :
    checkStartsWith o q name bnName ty item =
      (if o.includeEnglish ∧ q <+: lowerStr name then
        [⟨name, bnName, ty, item, 1⟩]
       else if o.includeBengali ∧ q <+: bnName then
        [⟨name, bnName, ty, item, 2⟩]
       else []) ∧
    (lowerStr bnName = bnName →
      checkStartsWith o q name bnName ty item =
        checkStartsWithSpec o q name bnName ty item) := by
  constructor
  · simp [checkStartsWith, hcs]
  · intro hbn
    simp [checkStartsWith, checkStartsWithSpec, hcs, hbn]

/-- C9 witness: the amended description at a concrete Bengali record, whose
secondary name is fold-invariant. -/
theorem autocomplete_fold_amended_witness :
    defaultSearchOptions.caseSensitive = false ∧
      lowerStr ['ঢ', 'া', 'ক', 'া'] = ['ঢ', 'া', 'ক', 'া'] ∧
      checkStartsWith defaultSearchOptions ['ঢ'] ['D', 'h', 'a', 'k', 'a']
          ['ঢ', 'া', 'ক', 'া'] LocationType.division dhakaDivision =
        checkStartsWithSpec defaultSearchOptions ['ঢ'] ['D', 'h', 'a', 'k', 'a']
          ['ঢ', 'া', 'ক', 'া'] LocationType.division dhakaDivision :=
  ⟨rfl, by decide,
    (autocomplete_fold_amended defaultSearchOptions ['ঢ'] ['D', 'h', 'a', 'k', 'a']
      ['ঢ', 'া', 'ক', 'া'] LocationType.division dhakaDivision rfl).2 (by decide)⟩

/-! ## C7: `quickSearch` returns a maximum-score entity -/

theorem sortK_head_min {α β : Type} [LinearOrder β] (key : α → β)
    {l : List α} {x : α} {rest : List α} (h : sortK key l = x :: rest) :
    ∀ y ∈ l, key x ≤ key y := by
  intro y hy
  have hy' : y ∈ sortK key l := (sortK_perm key l).mem_iff.mpr hy
  rw [h] at hy'
  rcases List.mem_cons.mp hy' with h1 | h1
  · rw [h1]
  · have hs := sortK_sorted key l
    rw [h] at hs
    exact (List.pairwise_cons.mp hs).1 y h1

theorem sortK_head_mem {α β : Type} [LinearOrder β] (key : α → β)
    {l : List α} {x : α} {rest : List α} (h : sortK key l = x :: rest) :
    x ∈ l := by
  have : x ∈ sortK key l := by rw [h]; exact List.mem_cons_self x rest
  exact (sortK_perm key l).mem_iff.mp this

theorem sortK_eq_nil_iff {α β : Type} [LinearOrder β] (key : α → β)
    (l : List α) : sortK key l = [] ↔ l = [] := by
  constructor
  · intro h
    have hlen := (sortK_perm key l).length_eq
    rw [h] at hlen
    exact List.length_eq_zero.mp hlen.symm
  · intro h
    subst h
    rfl

/-- A category searched with `limit := 1` keeps exactly its best match: its
single entry dominates every collected match of that category. -/
theorem categoryOk_limit_one_best {data : List Location} {tq : List Char}
    {o : SearchOptions} {ty : LocationType} {out : List SearchResult}
    {ms : List SearchResult}
    (hc : categoryOk data tq { o with limit := 1 } ty out)
    (hmem : ty ∈ o.types)
    (hms : collectMatches data tq { o with limit := 1 } = Except.ok ms) :
    ∀ m ∈ ms, ∃ sr ∈ out, m.score ≤ sr.score := by
  rcases hc with ⟨_, ms', hms', hout⟩ | ⟨hm', _⟩
  · rw [hms] at hms'
    injection hms' with hms'
    subst hms'
    intro m hmmem
    cases hsort : sortK scoreKey ms with
    | nil =>
      rw [(sortK_eq_nil_iff scoreKey ms).mp hsort] at hmmem
      cases hmmem
    | cons m0 rest =>
      refine ⟨m0, ?_, ?_⟩
      · have hslice :
            sliceEnd (m0 :: rest) ({ o with limit := 1 } : SearchOptions).limit =
              [m0] := rfl
        rw [hout, hsort, hslice]
        exact List.mem_singleton.mpr rfl
      · have := sortK_head_min scoreKey hsort m hmmem
        simpa [scoreKey] using this
  · exact absurd hmem hm'

theorem mem_sliceEnd {γ : Type} {x : γ} {l : List γ} {e : Int}
    (h : x ∈ sliceEnd l e) : x ∈ l := by
  unfold sliceEnd at h
  exact List.mem_of_mem_take h

/-- C7: a successful `quickSearch` runs `search` with a per-category limit
of 1, flattens the three sequences and re-sorts by descending score; it
returns `none` exactly when every category sequence is empty, and otherwise
an entity carried by a flattened entry whose score dominates every entry of
the flattened sequences — and thereby every collected match of every
searched category. -/
theorem quickSearch_spec (dv dt uz : List Location) (query : List Char)
    (o : SearchOptions) (r : Option Location)
    (h : quickSearch dv dt uz query o = Except.ok r) :
    ∃ res, search dv dt uz query { o with limit := 1 } = Except.ok res ∧
      (r = none ↔
        res.divisions = [] ∧ res.districts = [] ∧ res.upazilas = []) ∧
      (∀ e, r = some e →
        ∃ sr, sr ∈ res.divisions ++ res.districts ++ res.upazilas ∧
          sr.item = e ∧
          (∀ sr', sr' ∈ res.divisions ++ res.districts ++ res.upazilas →
            sr'.score ≤ sr.score) ∧
          (∀ ms, LocationType.division ∈ o.types →
            collectMatches dv (trimStr query) { o with limit := 1 } =
              Except.ok ms →
            ∀ m ∈ ms, m.score ≤ sr.score) ∧
          (∀ ms, LocationType.district ∈ o.types →
            collectMatches dt (trimStr query) { o with limit := 1 } =
              Except.ok ms →
            ∀ m ∈ ms, m.score ≤ sr.score) ∧
          (∀ ms, LocationType.upazila ∈ o.types →
            collectMatches uz (trimStr query) { o with limit := 1 } =
              Except.ok ms →
            ∀ m ∈ ms, m.score ≤ sr.score)) := by
  unfold quickSearch at h
  cases hs : search dv dt uz query { o with limit := 1 } with
  | error e =>
    rw [hs] at h
    exact absurd h (by simp [Except.map])
  | ok res =>
    rw [hs] at h
    simp only [Except.map] at h
    injection h with h
    refine ⟨res, rfl, ?_, ?_⟩
    · rw [← h]
      by_cases hall : res.divisions ++ res.districts ++ res.upazilas = []
      · rw [if_pos hall]
        simp only [List.append_eq_nil] at hall
        simp [hall.1.1, hall.1.2, hall.2]
      · rw [if_neg hall]
        cases hsort : sortK scoreKey (res.divisions ++ res.districts ++ res.upazilas) with
        | nil => exact absurd ((sortK_eq_nil_iff _ _).mp hsort) hall
        | cons first rest =>
          constructor
          · intro hc
            exact absurd hc (by simp)
          · intro hc
            exact absurd (by simp [hc.1, hc.2.1, hc.2.2] :
              res.divisions ++ res.districts ++ res.upazilas = []) hall
    · intro e he
      rw [← h] at he
      by_cases hall : res.divisions ++ res.districts ++ res.upazilas = []
      · rw [if_pos hall] at he
        exact absurd he (by simp)
      · rw [if_neg hall] at he
        cases hsort : sortK scoreKey (res.divisions ++ res.districts ++ res.upazilas) with
        | nil => exact absurd ((sortK_eq_nil_iff _ _).mp hsort) hall
        | cons first rest =>
          rw [hsort] at he
          have hitem : first.item = e := by
            injection he
          have hfmem : first ∈ res.divisions ++ res.districts ++ res.upazilas :=
            sortK_head_mem scoreKey hsort
          have hmax : ∀ sr' ∈ res.divisions ++ res.districts ++ res.upazilas,
              sr'.score ≤ first.score := by
            intro sr' hsr'
            have := sortK_head_min scoreKey hsort sr' hsr'
            simpa [scoreKey] using this
          have hcats := search_ok_elim hs
          have hcat_best : ∀ (data : List Location) (ty : LocationType)
              (out : List SearchResult),
              categoryOk data (trimStr query) { o with limit := 1 } ty out →
              (∀ sr' ∈ out, sr'.score ≤ first.score) →
              ty ∈ o.types →
              ∀ ms, collectMatches data (trimStr query) { o with limit := 1 } =
                Except.ok ms →
              ∀ m ∈ ms, m.score ≤ first.score := by
            intro data ty out hc hsub hmem ms hms m hm
            obtain ⟨sr, hsr_mem, hsr_ge⟩ :=
              categoryOk_limit_one_best hc hmem hms m hm
            exact le_trans hsr_ge (hsub sr hsr_mem)
          rcases hcats with ⟨_, hres⟩ | ⟨_, hd, ht, hu⟩
          · exfalso
            subst hres
            exact hall rfl
          · refine ⟨first, hfmem, hitem, hmax, ?_, ?_, ?_⟩
            · intro ms hmem hms m hm
              exact hcat_best dv LocationType.division res.divisions hd
                (fun sr' hsr' => hmax sr' (by
                  simp only [List.mem_append]
                  exact Or.inl (Or.inl hsr'))) hmem ms hms m hm
            · intro ms hmem hms m hm
              exact hcat_best dt LocationType.district res.districts ht
                (fun sr' hsr' => hmax sr' (by
                  simp only [List.mem_append]
                  exact Or.inl (Or.inr hsr'))) hmem ms hms m hm
            · intro ms hmem hms m hm
              exact hcat_best uz LocationType.upazila res.upazilas hu
                (fun sr' hsr' => hmax sr' (by
                  simp only [List.mem_append]
                  exact Or.inr hsr')) hmem ms hms m hm

/-- C7 witness: `quickSearch` over empty catalogs returns `none`, and the
specification instantiates there. -/
theorem quickSearch_spec_witness :
    quickSearch [] [] [] ['d'] defaultSearchOptions = Except.ok none ∧
      ∃ res, search [] [] [] ['d'] { defaultSearchOptions with limit := 1 } =
          Except.ok res ∧
        ((none : Option Location) = none ↔
          res.divisions = [] ∧ res.districts = [] ∧ res.upazilas = []) :=
  ⟨rfl,
    match quickSearch_spec [] [] [] ['d'] defaultSearchOptions none rfl with
    | ⟨res, h1, h2, _⟩ => ⟨res, h1, h2⟩⟩

end BdAddress
